import Mathlib

/-!
Verification of the lexer core of a small C compiler front end
(files `src/main.c`; the second source file is an earlier identical copy).

The development shallowly embeds the two components:

* `TokenList` with `create_token_list` / `add_token` — the growable token
  buffer (src/main.c lines 108-181);
* `lex` — the scanning loop (src/main.c lines 194-275), modelled as a
  function on the list of characters of the source.  File input is
  abstracted: `lex` receives `none` when `fopen` fails and `some cs`
  (the character content) when it succeeds.  `fgetc`-to-`EOF` reading is
  the structural recursion on the character list; `ungetc` is the model
  keeping the broken character at the head of the remaining list.

ASCII classification functions mirror ctype.h in the C locale.
-/

/-- C ctype `isspace` in the C locale: space (32) or 9..13 (tab, newline,
vertical tab, form feed, carriage return). -/
def isspace (c : Char) : Bool := c.toNat = 32 || (9 ≤ c.toNat && c.toNat ≤ 13)

/-- C ctype `isalpha` in the C locale: ASCII letters A-Z (65-90) and a-z (97-122). -/
def isalpha (c : Char) : Bool :=
  (65 ≤ c.toNat && c.toNat ≤ 90) || (97 ≤ c.toNat && c.toNat ≤ 122)

/-- C ctype `isdigit`: ASCII digits 0-9 (48-57). -/
def isdigit (c : Char) : Bool := 48 ≤ c.toNat && c.toNat ≤ 57

/-- C ctype `isalnum`: letter or digit. -/
def isalnum (c : Char) : Bool := isalpha c || isdigit c

/-- The `TokenType` enum of src/main.c lines 27-38. -/
inductive TokenType where
  | INT_KEYWORD
  | RETURN_KEYWORD
  | IDENTIFIER
  | L_PARAN
  | R_PARAN
  | L_BRACE
  | R_BRACE
  | INT_LITERAL
  | SEMICOLON
  | UNKNOWN
deriving DecidableEq

/-- The `Token` struct of src/main.c lines 47-50: a type and the owned
string payload (`strdup` of the matched text). -/
structure Token where
  type : TokenType
  value : String
deriving DecidableEq

/-- The `TokenList` struct of src/main.c lines 59-63.  The `tokens`
array is modelled by the list of tokens actually stored (in order);
`size` and `capacity` are kept explicitly as in the C struct. -/
structure TokenList where
  tokens : List Token
  size : Nat
  capacity : Nat
deriving DecidableEq

/-- `create_token_list` (src/main.c lines 108-116): size 0, capacity as
given, storage for `init_capacity` tokens allocated.  There is no guard
on `init_capacity` in the C code and none here. -/
def create_token_list (init_capacity : Nat) : TokenList :=
  { tokens := [], size := 0, capacity := init_capacity }

/-- `add_token` (src/main.c lines 163-181): if `size >= capacity` the
capacity is doubled (and the storage reallocated) before the new token is
written at index `size` and `size` is incremented.  The C function
returns a pointer to the inserted token; the model returns the updated
list.  `realloc` failure (process abort) is outside the model. -/
def add_token (list : TokenList) (type : TokenType) (value : String) : TokenList :=
  let grown : TokenList :=
    if list.size ≥ list.capacity then
      { list with capacity := list.capacity * 2 }
    else list
  { grown with tokens := grown.tokens ++ [Token.mk type value], size := grown.size + 1 }

/-- Folding `add_token` over a list of (type, value) pairs: `k` successive
appends to a buffer. -/
def append_list (l : TokenList) (ps : List (TokenType × String)) : TokenList :=
  ps.foldl (fun acc p => add_token acc p.1 p.2) l

/-- Classification of a completed alphabetic run (src/main.c lines
220-226): exact `strcmp` against "int" and "return", otherwise an
identifier carrying the full run text. -/
def classify_alpha (run : List Char) : Token :=
  if String.mk run = "int" then Token.mk TokenType.INT_KEYWORD "int"
  else if String.mk run = "return" then Token.mk TokenType.RETURN_KEYWORD "return"
  else Token.mk TokenType.IDENTIFIER (String.mk run)

/-- The `switch` of src/main.c lines 248-269: the five punctuation
characters, and the default branch that emits `UNKNOWN` with the single
character as text. -/
def punct_token (c : Char) : Token :=
  if c = '(' then Token.mk TokenType.L_PARAN "("
  else if c = ')' then Token.mk TokenType.R_PARAN ")"
  else if c = '\x7b' then Token.mk TokenType.L_BRACE "\x7b"
  else if c = '\x7d' then Token.mk TokenType.R_BRACE "\x7d"
  else if c = ';' then Token.mk TokenType.SEMICOLON ";"
  else Token.mk TokenType.UNKNOWN (String.mk [c])

/-- The scanning loop of `lex` (src/main.c lines 207-271), fuelled so the
recursion is structural.  One step per loop iteration:

* whitespace is skipped;
* an alphabetic character starts a run of alphanumerics
  (`while (isalnum(c = fgetc(file)))`); the character that breaks the run
  has been read and, since the `ungetc` call on line 218 is commented
  out, it is NOT pushed back: the model drops one further character
  (`List.drop 1`) after the run;
* a digit starts a run of digits, and there line 240 does call `ungetc`,
  so the breaking character stays at the head of the remaining input;
* any other character goes through `punct_token` and exactly that one
  character is consumed.

Each iteration consumes at least one character, so fuel equal to the
length of the input (supplied by `lex_chars`) suffices. -/
def lexF : Nat → List Char → List Token
  | 0, _ => []
  | fuel + 1, cs =>
    match cs with
    | [] => []
    | c :: cs' =>
      if isspace c then lexF fuel cs'
      else if isalpha c then
        classify_alpha (c :: cs'.takeWhile isalnum) ::
          lexF fuel ((cs'.dropWhile isalnum).drop 1)
      else if isdigit c then
        Token.mk TokenType.INT_LITERAL (String.mk (c :: cs'.takeWhile isdigit)) ::
          lexF fuel (cs'.dropWhile isdigit)
      else punct_token c :: lexF fuel cs'

/-- The token sequence `lex` produces from the character content of an
opened source. -/
def lex_chars (cs : List Char) : List Token := lexF cs.length cs

/-- `lex` (src/main.c lines 194-275).  `none` as input models a source
that cannot be opened (`fopen` returned `NULL`): the function returns
`NULL` at once, before `create_token_list` runs, so no token buffer
exists on that path.  On an opened source the whole content is scanned
and the populated buffer is returned. -/
def lex (source : Option (List Char)) : Option (List Token) :=
  match source with
  | none => none
  | some cs => some (lex_chars cs)

/-- The run terminator test: a list does not begin with a character
satisfying `p` (so a `p`-run ending just before it is maximal). -/
def breaks (p : Char → Bool) : List Char → Bool
  | [] => true
  | c :: _ => !p c

/-- The scratch buffer `char buffer[256]` of src/main.c line 204. -/
def scratch_size : Nat := 256

/-- Indices of the scratch buffer written while accumulating a run of
length `len`: `buffer[buffer_index++] = c` for indices 0..len-1 followed
by `buffer[buffer_index] = 0` at index `len` (src/main.c lines 211-217
and 233-239), with no bounds check anywhere. -/
def scratch_writes (len : Nat) : List Nat := List.range (len + 1)

/-! ### List and character-class helper lemmas -/

theorem length_dropWhile_le (p : Char → Bool) (l : List Char) :
    (l.dropWhile p).length ≤ l.length := by
  induction l with
  | nil => simp [List.dropWhile]
  | cons x xs ih =>
    by_cases hx : p x
    · simp only [List.dropWhile, hx]
      exact Nat.le_trans ih (Nat.le_succ _)
    · simp only [List.dropWhile, Bool.not_eq_true] at hx ⊢
      simp [hx]

theorem not_isspace_of_isalpha {c : Char} (h : isalpha c = true) : isspace c = false := by
  simp only [isalpha, Bool.or_eq_true, Bool.and_eq_true, decide_eq_true_eq] at h
  simp only [isspace, Bool.or_eq_false_iff, Bool.and_eq_false_iff,
    decide_eq_false_iff_not]
  omega

theorem not_isspace_of_isdigit {c : Char} (h : isdigit c = true) : isspace c = false := by
  simp only [isdigit, Bool.and_eq_true, decide_eq_true_eq] at h
  simp only [isspace, Bool.or_eq_false_iff, Bool.and_eq_false_iff,
    decide_eq_false_iff_not]
  omega

theorem not_isalpha_of_isdigit {c : Char} (h : isdigit c = true) : isalpha c = false := by
  simp only [isdigit, Bool.and_eq_true, decide_eq_true_eq] at h
  simp only [isalpha, Bool.or_eq_false_iff, Bool.and_eq_false_iff,
    decide_eq_false_iff_not]
  omega

theorem takeWhile_append_run (p : Char → Bool) (xs ys : List Char)
    (hxs : ∀ c ∈ xs, p c = true) (hys : breaks p ys = true) :
    (xs ++ ys).takeWhile p = xs ∧ (xs ++ ys).dropWhile p = ys := by
  induction xs with
  | nil =>
    cases ys with
    | nil => simp [List.takeWhile, List.dropWhile]
    | cons y ys' =>
      simp only [breaks, Bool.not_eq_true'] at hys
      simp [List.takeWhile, List.dropWhile, hys]
  | cons x xs ih =>
    have hx : p x = true := hxs x (by simp)
    have ih' := ih (fun c hc => hxs c (by simp [hc]))
    simp [List.takeWhile, List.dropWhile, hx, ih'.1, ih'.2]

/-! ### Fuel adequacy for the scanning loop -/

theorem lexF_congr : ∀ (f1 : Nat) (cs : List Char) (f2 : Nat),
    cs.length ≤ f1 → cs.length ≤ f2 → lexF f1 cs = lexF f2 cs := by
  intro f1
  induction f1 with
  | zero =>
    intro cs f2 h1 _
    have hcs : cs = [] := List.eq_nil_of_length_eq_zero (Nat.le_zero.mp h1)
    subst hcs
    cases f2 <;> rfl
  | succ f ih =>
    intro cs f2 h1 h2
    cases cs with
    | nil => cases f2 <;> rfl
    | cons c cs' =>
      cases f2 with
      | zero => simp at h2
      | succ f2' =>
        simp only [List.length_cons, Nat.add_le_add_iff_right] at h1 h2
        simp only [lexF]
        by_cases hs : isspace c
        · simp only [hs, if_true]
          exact ih cs' f2' h1 h2
        · by_cases ha : isalpha c
          · have hlen : ((cs'.dropWhile isalnum).drop 1).length ≤ cs'.length := by
              have := length_dropWhile_le isalnum cs'
              simp only [List.length_drop]
              omega
            simp only [hs, ha, if_false, if_true, Bool.false_eq_true]
            rw [ih _ f (Nat.le_trans hlen h1) (Nat.le_trans hlen h1),
              ih _ f2' (Nat.le_trans hlen h1) (Nat.le_trans hlen h2)]
          · by_cases hd : isdigit c
            · have hlen : (cs'.dropWhile isdigit).length ≤ cs'.length :=
                length_dropWhile_le isdigit cs'
              simp only [hs, ha, hd, if_false, if_true, Bool.false_eq_true]
              rw [ih _ f (Nat.le_trans hlen h1) (Nat.le_trans hlen h1),
                ih _ f2' (Nat.le_trans hlen h1) (Nat.le_trans hlen h2)]
            · simp only [hs, ha, hd, if_false, Bool.false_eq_true]
              rw [ih cs' f h1 h1, ih cs' f2' h1 h2]

theorem lexF_eq_lex_chars (f : Nat) (cs : List Char) (h : cs.length ≤ f) :
    lexF f cs = lex_chars cs :=
  lexF_congr f cs cs.length h (Nat.le_refl _)

/-! ### One-step unfoldings of the scanning loop -/

theorem lex_chars_nil : lex_chars [] = [] := rfl

theorem lex_chars_cons_space (c : Char) (cs : List Char) (h : isspace c = true) :
    lex_chars (c :: cs) = lex_chars cs := by
  unfold lex_chars
  simp only [List.length_cons, lexF, h, if_true]

theorem lex_chars_alpha (a : Char) (as rest : List Char) (ha : isalpha a = true)
    (has : ∀ c ∈ as, isalnum c = true) (hrest : breaks isalnum rest = true) :
    lex_chars (a :: (as ++ rest)) = classify_alpha (a :: as) :: lex_chars (rest.drop 1) := by
  have htd := takeWhile_append_run isalnum as rest has hrest
  have hsp : isspace a = false := not_isspace_of_isalpha ha
  show lexF (a :: (as ++ rest)).length (a :: (as ++ rest)) = _
  simp only [List.length_cons, lexF, hsp, ha, if_true, Bool.false_eq_true, if_false,
    htd.1, htd.2]
  rw [lexF_eq_lex_chars]
  have := length_dropWhile_le isalnum rest
  simp only [List.length_drop, List.length_append]
  omega

theorem lex_chars_digit (d : Char) (ds rest : List Char) (hd : isdigit d = true)
    (hds : ∀ c ∈ ds, isdigit c = true) (hrest : breaks isdigit rest = true) :
    lex_chars (d :: (ds ++ rest)) =
      Token.mk TokenType.INT_LITERAL (String.mk (d :: ds)) :: lex_chars rest := by
  have htd := takeWhile_append_run isdigit ds rest hds hrest
  have hsp : isspace d = false := not_isspace_of_isdigit hd
  have hal : isalpha d = false := not_isalpha_of_isdigit hd
  show lexF (d :: (ds ++ rest)).length (d :: (ds ++ rest)) = _
  simp only [List.length_cons, lexF, hsp, hal, hd, if_true, Bool.false_eq_true, if_false,
    htd.1, htd.2]
  rw [lexF_eq_lex_chars]
  simp only [List.length_append]
  omega

theorem lex_chars_other (c : Char) (cs : List Char) (h1 : isspace c = false)
    (h2 : isalpha c = false) (h3 : isdigit c = false) :
    lex_chars (c :: cs) = punct_token c :: lex_chars cs := by
  show lexF (c :: cs).length (c :: cs) = _
  simp only [List.length_cons, lexF, h1, h2, h3, Bool.false_eq_true, if_false]
  rfl

/-! ### Token-buffer growth arithmetic -/

theorem add_token_size (l : TokenList) (t : TokenType) (v : String) :
    (add_token l t v).size = l.size + 1 := by
  unfold add_token
  by_cases h : l.size ≥ l.capacity <;> simp [h]

theorem add_token_tokens (l : TokenList) (t : TokenType) (v : String) :
    (add_token l t v).tokens = l.tokens ++ [Token.mk t v] := by
  unfold add_token
  by_cases h : l.size ≥ l.capacity <;> simp [h]

theorem add_token_capacity (l : TokenList) (t : TokenType) (v : String) :
    (add_token l t v).capacity =
      if l.size ≥ l.capacity then l.capacity * 2 else l.capacity := by
  unfold add_token
  by_cases h : l.size ≥ l.capacity <;> simp [h]

/-- The growth invariant of a buffer created with capacity `c`: the length
fits, the capacity is a power-of-two multiple of `c`, and the capacity is
either still `c` or below twice the length (so each doubling was forced). -/
def GoodCap (c : Nat) (l : TokenList) : Prop :=
  l.size ≤ l.capacity ∧ (∃ i, l.capacity = c * 2 ^ i) ∧
    (l.capacity = c ∨ l.capacity < 2 * l.size)

theorem add_token_good {c : Nat} (hc : 1 ≤ c) {l : TokenList} (h : GoodCap c l)
    (t : TokenType) (v : String) : GoodCap c (add_token l t v) := by
  obtain ⟨hsc, ⟨i, hcap⟩, hmin⟩ := h
  have hpos : 0 < l.capacity := by
    rw [hcap]
    exact Nat.mul_pos hc (Nat.pos_pow_of_pos i (by omega))
  by_cases hge : l.size ≥ l.capacity
  · have heq : l.size = l.capacity := Nat.le_antisymm hsc hge
    refine ⟨?_, ⟨i + 1, ?_⟩, Or.inr ?_⟩
    · rw [add_token_size, add_token_capacity, if_pos hge]
      omega
    · rw [add_token_capacity, if_pos hge, hcap, pow_succ, Nat.mul_assoc]
    · rw [add_token_size, add_token_capacity, if_pos hge]
      omega
  · refine ⟨?_, ⟨i, ?_⟩, ?_⟩
    · rw [add_token_size, add_token_capacity, if_neg hge]
      omega
    · rw [add_token_capacity, if_neg hge, hcap]
    · rw [add_token_size, add_token_capacity, if_neg hge]
      rcases hmin with h | h
      · exact Or.inl h
      · exact Or.inr (by omega)

theorem append_list_good {c : Nat} (hc : 1 ≤ c) :
    ∀ (ps : List (TokenType × String)) (l : TokenList), GoodCap c l →
      GoodCap c (append_list l ps) ∧
        (append_list l ps).size = l.size + ps.length := by
  intro ps
  induction ps with
  | nil =>
    intro l h
    exact ⟨h, by simp [append_list]⟩
  | cons p ps ih =>
    intro l h
    have hrec := ih (add_token l p.1 p.2) (add_token_good hc h p.1 p.2)
    refine ⟨hrec.1, ?_⟩
    show (append_list (add_token l p.1 p.2) ps).size = l.size + (ps.length + 1)
    rw [hrec.2, add_token_size]
    omega

theorem append_list_zero_cap :
    ∀ (ps : List (TokenType × String)) (l : TokenList), l.capacity = 0 →
      (append_list l ps).capacity = 0 ∧
        (append_list l ps).size = l.size + ps.length := by
  intro ps
  induction ps with
  | nil =>
    intro l h
    exact ⟨h, by simp [append_list]⟩
  | cons p ps ih =>
    intro l h
    have hcap : (add_token l p.1 p.2).capacity = 0 := by
      rw [add_token_capacity, h]
      simp
    have hrec := ih (add_token l p.1 p.2) hcap
    refine ⟨hrec.1, ?_⟩
    show (append_list (add_token l p.1 p.2) ps).size = l.size + (ps.length + 1)
    rw [hrec.2, add_token_size]
    omega

/-- C4: appending `k = ps.length` tokens to a buffer created with capacity
`c ≥ 1` keeps `size ≤ capacity` (for every `ps`, hence after every
intermediate append as well), the final capacity is the least value of the
form `c * 2 ^ i` that is at least `k` (and exactly `c` when `k ≤ c`), and a
single append doubles the capacity exactly when it finds the length equal
to the capacity, doing so before the insertion (the written index
`l.size` lies below the already-grown capacity). -/
theorem token_list_growth (c : Nat) (ps : List (TokenType × String)) (hc : 1 ≤ c) :
    (append_list (create_token_list c) ps).size = ps.length ∧
    (append_list (create_token_list c) ps).size ≤
      (append_list (create_token_list c) ps).capacity ∧
    (∃ i, (append_list (create_token_list c) ps).capacity = c * 2 ^ i) ∧
    (∀ j, ps.length ≤ c * 2 ^ j →
      (append_list (create_token_list c) ps).capacity ≤ c * 2 ^ j) ∧
    (ps.length ≤ c → (append_list (create_token_list c) ps).capacity = c) ∧
    (∀ (l : TokenList) (t : TokenType) (v : String),
      (l.size < l.capacity → (add_token l t v).capacity = l.capacity) ∧
      (l.size = l.capacity → (add_token l t v).capacity = 2 * l.capacity) ∧
      (add_token l t v).size = l.size + 1 ∧
      (1 ≤ l.capacity → l.size = l.capacity →
        l.size < (add_token l t v).capacity)) := by
  have hgood : GoodCap c (create_token_list c) :=
    ⟨by simp [create_token_list], ⟨0, by simp [create_token_list]⟩,
      Or.inl (by simp [create_token_list])⟩
  obtain ⟨⟨hsc, ⟨i, hcap⟩, hmin⟩, hsize⟩ := append_list_good hc ps (create_token_list c) hgood
  have hsize' : (append_list (create_token_list c) ps).size = ps.length := by
    rw [hsize]
    simp [create_token_list]
  refine ⟨hsize', hsc, ⟨i, hcap⟩, ?_, ?_, ?_⟩
  · intro j hj
    rcases hmin with h | h
    · rw [h]
      calc c = c * 1 := (Nat.mul_one c).symm
      _ ≤ c * 2 ^ j := Nat.mul_le_mul_left c (Nat.one_le_two_pow)
    · rw [hsize'] at h
      have hlt : c * 2 ^ i < c * 2 ^ (j + 1) := by
        rw [pow_succ, ← Nat.mul_assoc]
        calc c * 2 ^ i = (append_list (create_token_list c) ps).capacity := hcap.symm
        _ < 2 * ps.length := h
        _ ≤ 2 * (c * 2 ^ j) := by omega
        _ = c * 2 ^ j * 2 := by ring
      have hij : i < j + 1 := by
        have h2 : (2 : Nat) ^ i < 2 ^ (j + 1) := Nat.lt_of_mul_lt_mul_left hlt
        exact (Nat.pow_lt_pow_iff_right (by omega)).mp h2
      rw [hcap]
      exact Nat.mul_le_mul_left c (Nat.pow_le_pow_right (by omega) (by omega))
  · intro hk
    rcases hmin with h | h
    · exact h
    · rcases Nat.eq_zero_or_pos i with hi | hi
      · rw [hcap, hi]
        simp
      · exfalso
        have h2 : 2 ≤ 2 ^ i := by
          calc (2 : Nat) = 2 ^ 1 := rfl
          _ ≤ 2 ^ i := Nat.pow_le_pow_right (by omega) hi
        have h3 : 2 * c ≤ c * 2 ^ i := by
          calc 2 * c = c * 2 := by ring
          _ ≤ c * 2 ^ i := Nat.mul_le_mul_left c h2
        rw [hcap, hsize'] at h
        omega
  · intro l t v
    refine ⟨?_, ?_, add_token_size l t v, ?_⟩
    · intro h
      rw [add_token_capacity, if_neg (by omega)]
    · intro h
      rw [add_token_capacity, if_pos (by omega)]
      ring
    · intro h1 h2
      rw [add_token_capacity, if_pos (by omega)]
      omega

/-- Witness for C4 at `c = 2` and five appends. -/
theorem token_list_growth_witness :
    (1 ≤ 2) ∧
      (append_list (create_token_list 2)
            (List.replicate 5 (TokenType.UNKNOWN, "x"))).size =
        (List.replicate 5 ((TokenType.UNKNOWN, "x") : TokenType × String)).length ∧
      (append_list (create_token_list 2)
            (List.replicate 5 (TokenType.UNKNOWN, "x"))).size ≤
        (append_list (create_token_list 2)
            (List.replicate 5 (TokenType.UNKNOWN, "x"))).capacity :=
  ⟨by decide, (token_list_growth 2 _ (by decide)).1,
    (token_list_growth 2 _ (by decide)).2.1⟩

/-- C10: a buffer created with capacity 0 (violating the `≥ 1`
precondition, which `create_token_list` does not check) never grows:
doubling leaves the capacity at `0 * 2 = 0`, so after any nonempty run of
appends the size exceeds the capacity — every insertion lands at an index
not below the zero capacity, i.e. outside the zero-sized allocation. -/
theorem zero_capacity_never_grows (ps : List (TokenType × String)) (h : ps ≠ []) :
    (create_token_list 0).capacity = 0 ∧
    (∀ (l : TokenList) (t : TokenType) (v : String), l.capacity = 0 →
      (add_token l t v).capacity = 0) ∧
    (append_list (create_token_list 0) ps).capacity = 0 ∧
    (append_list (create_token_list 0) ps).size = ps.length ∧
    (append_list (create_token_list 0) ps).capacity <
      (append_list (create_token_list 0) ps).size := by
  have hz := append_list_zero_cap ps (create_token_list 0) rfl
  have hlen : 0 < ps.length := List.length_pos.mpr h
  have hsize : (append_list (create_token_list 0) ps).size = ps.length := by
    rw [hz.2]
    simp [create_token_list]
  refine ⟨rfl, ?_, hz.1, hsize, ?_⟩
  · intro l t v h0
    rw [add_token_capacity, h0]
    simp
  · rw [hz.1, hsize]
    omega

/-- Witness for C10 at a single append. -/
theorem zero_capacity_never_grows_witness :
    ([((TokenType.UNKNOWN : TokenType), ("x" : String))] ≠ []) ∧
      (append_list (create_token_list 0)
          [(TokenType.UNKNOWN, "x")]).capacity <
        (append_list (create_token_list 0) [(TokenType.UNKNOWN, "x")]).size :=
  ⟨by decide, (zero_capacity_never_grows [(TokenType.UNKNOWN, "x")] (by decide)).2.2.2.2⟩

/-! ### Scanner claims -/

/-- C1 (claim refuted by the code; evaluation at a failing input): the
`ungetc` of the alphabetic branch is commented out (src/main.c line 218),
so the character terminating an alphabetic run IS consumed and dropped.
On the source `a(` the code produces only the identifier token — the
parenthesis that ended the run never reaches the token stream, although
the claim says it must become its own token. -/
theorem alpha_terminator_dropped :
    lex_chars ("a(".data) = [Token.mk TokenType.IDENTIFIER "a"] ∧
      Token.mk TokenType.L_PARAN "(" ∉ lex_chars ("a(".data) := by
  decide

/-- C2 (claim refuted by the code; evaluation at the claimed input): the
program text yields only eight tokens — `L_PARAN` is missing, because the
`(` after `main` is consumed as the run terminator of the identifier run
and, with the pushback commented out, dropped. -/
theorem lex_int_main_program :
    lex_chars ("int main() \x7b return 0; \x7d".data) =
      [Token.mk TokenType.INT_KEYWORD "int",
       Token.mk TokenType.IDENTIFIER "main",
       Token.mk TokenType.R_PARAN ")",
       Token.mk TokenType.L_BRACE "\x7b",
       Token.mk TokenType.RETURN_KEYWORD "return",
       Token.mk TokenType.INT_LITERAL "0",
       Token.mk TokenType.SEMICOLON ";",
       Token.mk TokenType.R_BRACE "\x7d"] := by
  decide

/-- C3: a maximal digit run at a scan step is emitted as exactly one
`INT_LITERAL` token carrying the whole run, and the breaking character is
pushed back (`ungetc`, src/main.c line 240): the scan continues on `rest`
with the terminator still at its head. -/
theorem digit_run_single_int_literal (d : Char) (ds rest : List Char)
    (hd : isdigit d = true) (hds : ∀ c ∈ ds, isdigit c = true)
    (hrest : breaks isdigit rest = true) :
    lex_chars ((d :: ds) ++ rest) =
      Token.mk TokenType.INT_LITERAL (String.mk (d :: ds)) :: lex_chars rest := by
  simpa using lex_chars_digit d ds rest hd hds hrest

/-- Witness for C3: the run `42` before `;`. -/
theorem digit_run_single_int_literal_witness :
    isdigit '4' = true ∧
      lex_chars (('4' :: ['2']) ++ [';']) =
        Token.mk TokenType.INT_LITERAL (String.mk ['4', '2']) :: lex_chars [';'] :=
  ⟨by decide,
    digit_run_single_int_literal '4' ['2'] [';'] (by decide) (by decide) (by decide)⟩

/-- C5: classification of a completed alphabetic run is an exact string
comparison (src/main.c lines 220-226): exactly `"int"` gives
`INT_KEYWORD`, exactly `"return"` gives `RETURN_KEYWORD`, and any other
run gives one `IDENTIFIER` token carrying the full run text. -/
theorem keyword_exact_classification (a : Char) (as rest : List Char)
    (ha : isalpha a = true) (has : ∀ c ∈ as, isalnum c = true)
    (hrest : breaks isalnum rest = true) :
    (String.mk (a :: as) = "int" →
      lex_chars ((a :: as) ++ rest) =
        Token.mk TokenType.INT_KEYWORD "int" :: lex_chars (rest.drop 1)) ∧
    (String.mk (a :: as) = "return" →
      lex_chars ((a :: as) ++ rest) =
        Token.mk TokenType.RETURN_KEYWORD "return" :: lex_chars (rest.drop 1)) ∧
    (String.mk (a :: as) ≠ "int" → String.mk (a :: as) ≠ "return" →
      lex_chars ((a :: as) ++ rest) =
        Token.mk TokenType.IDENTIFIER (String.mk (a :: as)) ::
          lex_chars (rest.drop 1)) := by
  have hrun := lex_chars_alpha a as rest ha has hrest
  refine ⟨?_, ?_, ?_⟩
  · intro h
    rw [List.cons_append, hrun]
    unfold classify_alpha
    rw [if_pos h]
  · intro h
    rw [List.cons_append, hrun]
    unfold classify_alpha
    rw [if_neg (by rw [h]; decide), if_pos h]
  · intro h1 h2
    rw [List.cons_append, hrun]
    unfold classify_alpha
    rw [if_neg h1, if_neg h2]

/-- Witness for C5: the run `int2` is an identifier, not a keyword. -/
theorem keyword_exact_classification_witness :
    isalpha 'i' = true ∧
      lex_chars (('i' :: ['n', 't', '2']) ++ []) =
        Token.mk TokenType.IDENTIFIER (String.mk ['i', 'n', 't', '2']) ::
          lex_chars (List.drop 1 []) :=
  ⟨by decide,
    (keyword_exact_classification 'i' ['n', 't', '2'] [] (by decide) (by decide)
        (by decide)).2.2 (by decide) (by decide)⟩

/-- C6: a source that cannot be opened makes `lex` return the
distinguished failure (`NULL`, here `none`) before any token buffer is
created, while every opened source yields a (possibly empty) token
buffer. -/
theorem lex_source_open_failure :
    lex none = none ∧ ∀ cs : List Char, ∃ ts : List Token, lex (some cs) = some ts :=
  ⟨rfl, fun cs => ⟨lex_chars cs, rfl⟩⟩

/-- C7: an unrecognized character — not whitespace, not alphabetic, not a
digit, not one of the five punctuation characters — becomes exactly one
`UNKNOWN` token whose text is that character, and scanning continues with
the rest of the input. -/
theorem unknown_char_single_token (c : Char) (cs : List Char)
    (h1 : isspace c = false) (h2 : isalpha c = false) (h3 : isdigit c = false)
    (h4 : c ≠ '(') (h5 : c ≠ ')') (h6 : c ≠ '\x7b') (h7 : c ≠ '\x7d') (h8 : c ≠ ';') :
    lex_chars (c :: cs) =
      Token.mk TokenType.UNKNOWN (String.mk [c]) :: lex_chars cs := by
  rw [lex_chars_other c cs h1 h2 h3]
  unfold punct_token
  rw [if_neg h4, if_neg h5, if_neg h6, if_neg h7, if_neg h8]

/-- Witness for C7: a source holding only `@` yields exactly
`UNKNOWN("@")`. -/
theorem unknown_char_single_token_witness :
    isspace '@' = false ∧
      lex_chars ['@'] = [Token.mk TokenType.UNKNOWN (String.mk ['@'])] :=
  ⟨by decide,
    by rw [show (['@'] : List Char) = '@' :: [] from rfl,
      unknown_char_single_token '@' [] (by decide) (by decide) (by decide) (by decide)
        (by decide) (by decide) (by decide) (by decide), lex_chars_nil]⟩

/-- C8: a whitespace-only source (the empty source included) produces the
empty token sequence. -/
theorem whitespace_only_yields_empty (cs : List Char)
    (h : ∀ c ∈ cs, isspace c = true) : lex_chars cs = [] := by
  induction cs with
  | nil => rfl
  | cons c cs ih =>
    rw [lex_chars_cons_space c cs (h c (by simp))]
    exact ih (fun x hx => h x (by simp [hx]))

/-- Witness for C8 on a space, a newline and a tab. -/
theorem whitespace_only_yields_empty_witness :
    (∀ c ∈ [' ', '\n', '\t'], isspace c = true) ∧ lex_chars [' ', '\n', '\t'] = [] :=
  ⟨by decide, whitespace_only_yields_empty [' ', '\n', '\t'] (by decide)⟩

/-- C9: every scratch write for a run of length at most 255 stays below
the 256-byte bound; for a run of length 256 or more the terminating-null
write index (equal to the run length) is recorded by `scratch_writes` yet
is not within the buffer; and a concrete 256-character alphabetic run is
exactly what the scanner accumulates on an input of 256 letters. -/
theorem scratch_buffer_write_bounds :
    (∀ len, len ≤ 255 → ∀ i ∈ scratch_writes len, i < scratch_size) ∧
    (∀ len, 256 ≤ len → len ∈ scratch_writes len ∧ ¬ len < scratch_size) ∧
    ('a' :: (List.replicate 255 'a' ++ [';']).takeWhile isalnum).length = 256 := by
  refine ⟨?_, ?_, ?_⟩
  · intro len hlen i hi
    simp only [scratch_writes, List.mem_range] at hi
    simp only [scratch_size]
    omega
  · intro len hlen
    refine ⟨by simp [scratch_writes, List.mem_range], ?_⟩
    simp only [scratch_size]
    omega
  · have h := takeWhile_append_run isalnum (List.replicate 255 'a') [';']
      (fun c hc => by rw [List.eq_of_mem_replicate hc]; decide) (by decide)
    rw [h.1, List.length_cons, List.length_replicate]

/-- Witness for C9 at run length 200 (in bounds) and 256 (overflow). -/
theorem scratch_buffer_write_bounds_witness :
    ((200 : Nat) ≤ 255 ∧ ∀ i ∈ scratch_writes 200, i < scratch_size) ∧
      ((256 : Nat) ≤ 256 ∧ 256 ∈ scratch_writes 256 ∧ ¬ 256 < scratch_size) :=
  ⟨⟨by decide, scratch_buffer_write_bounds.1 200 (by decide)⟩,
    ⟨by decide, scratch_buffer_write_bounds.2.1 256 (by decide)⟩⟩
